import Mathlib

/-!
Shallow embedding of the trading-simulation engine in src/src/simulation.py
(`run_simulation_jit`, `run_all_simulations_parallel`) and of the single
configuration check performed by src/run_backtest.py (`main`).

Modelling conventions:
* Floating-point numbers are modelled by rationals; every branch condition of
  the source is an exact comparison, which rationals reproduce faithfully.
* A possibly-missing (NaN) price is an `Option Rat`; `none` stands for NaN.
  The mark-to-market sum `cash + sum positions[i]*price[i]` is NaN exactly
  when some price of the row is NaN (IEEE: `0 * NaN = NaN` and NaN is
  absorbing for addition), so the embedding computes it only on all-valid
  rows and treats a row containing `none` as a NaN mark-to-market.
* The per-run random stream is an explicit function `rng : Nat -> Rat`
  together with a cursor `k` in the state; `np.random.rand()` reads `rng k`
  and advances the cursor, `np.random.uniform(0.01, m)` reads a draw `u` and
  produces `0.01 + u * (m - 0.01)`, as numpy defines it.
* Two instrumentation fields extend the portfolio state: `fees` accumulates
  every fee amount the source computes, and `sold i` records whether the
  in-loop sell branch has ever fired for asset `i`.  Neither influences any
  other field.
-/

namespace Nof1

/-- Threshold 1e-8 used by the source for dust positions. -/
def eps : ℚ := 1 / 100000000

/-- Numeric value of a possibly-missing price; `none` (NaN) maps to 0, which
is only ever used where the source has already excluded the NaN case. -/
def priceVal (p : Option ℚ) : ℚ := p.getD 0

/-- A price row is valid when no entry is missing; exactly then the
mark-to-market value of the source is not NaN. -/
def rowValid (row : List (Option ℚ)) : Bool := row.all fun p => p.isSome

/-- Position value `sum positions[i] * price[t][i]` over one row. -/
def posVal (pos : ℕ → ℚ) (row : List (Option ℚ)) : ℚ :=
  ∑ i ∈ Finset.range row.length, pos i * priceVal (row.getD i none)

/-- Simulation parameters of `run_simulation_jit`. -/
structure Params where
  initial_capital : ℚ
  fee_rate : ℚ
  max_buy_perc_power : ℚ
  prob_hold : ℚ
  prob_buy : ℚ
  avoid_selling_winners : Bool
  leverage : ℚ

/-- Per-run portfolio state.  `available` is the loop-local
`available_to_deploy`, recomputed at the start of every timestep; `k` is the
cursor into the random stream; `fees` and `sold` are instrumentation. -/
structure St where
  cash : ℚ
  positions : ℕ → ℚ
  avg_cost : ℕ → ℚ
  available : ℚ
  k : ℕ
  fees : ℚ
  sold : ℕ → Bool

/-- Action selection of the source: `0` hold, `1` buy, `2` sell.  The source
precomputes `prob_hold_buy = prob_hold + prob_buy` and tests
`if r > prob_hold: if r < prob_hold_buy: buy else: sell`. -/
def actionOf (prob_hold prob_hold_buy r : ℚ) : ℕ :=
  if r > prob_hold then (if r < prob_hold_buy then 1 else 2) else 0

/-- The buy branch of the inner asset loop: `perc` is the freshly drawn
`np.random.uniform(0.01, max_buy_perc_power)`; the amount is `available *
perc`, clamped to `available`; the trade only happens above 1.0 units; the
cursor has already advanced past both draws.  Cash is debited the full
gross amount with no reference to its sign. -/
def buyBranch (P : Params) (i : ℕ) (price perc : ℚ) (s : St) : St :=
  let amount0 := s.available * perc
  let amount := if s.available < amount0 then s.available else amount0
  if 1 < amount then
    let fee := amount * P.fee_rate
    let net_spend := amount - fee
    let qty := net_spend / price
    let oldq := s.positions i
    let new_avg := (oldq * s.avg_cost i + qty * price) / (oldq + qty)
    { s with
      cash := s.cash - amount
      positions := Function.update s.positions i (oldq + qty)
      avg_cost := Function.update s.avg_cost i new_avg
      available := s.available - amount
      k := s.k + 2
      fees := s.fees + fee }
  else { s with k := s.k + 2 }

/-- The sell branch of the inner asset loop: with `avoid_selling_winners`
set, a position whose current price exceeds its average cost is kept;
otherwise the whole position is sold with a proportional fee. -/
def sellBranch (P : Params) (i : ℕ) (price : ℚ) (s : St) : St :=
  if (if P.avoid_selling_winners then decide (price ≤ s.avg_cost i) else true) then
    let sale := s.positions i * price
    let fee := sale * P.fee_rate
    { s with
      cash := s.cash + (sale - fee)
      positions := Function.update s.positions i 0
      avg_cost := Function.update s.avg_cost i 0
      k := s.k + 1
      fees := s.fees + fee
      sold := Function.update s.sold i true }
  else { s with k := s.k + 1 }

/-- One iteration of the inner asset loop of `run_simulation_jit` for asset
index `i` whose price entry this timestep is `p?`.  The action draw is
consumed before the price-validity check, exactly as in the source. -/
def assetStep (P : Params) (rng : ℕ → ℚ) (i : ℕ) (p? : Option ℚ) (s : St) : St :=
  let r := rng s.k
  let act := actionOf P.prob_hold (P.prob_hold + P.prob_buy) r
  match p? with
  | none => { s with k := s.k + 1 }
  | some price =>
    if price ≤ 0 then { s with k := s.k + 1 }
    else if act = 1 ∧ 1 < s.available then
      buyBranch P i price (1 / 100 + rng (s.k + 1) * (P.max_buy_perc_power - 1 / 100)) s
    else if act = 2 ∧ eps < s.positions i then
      sellBranch P i price s
    else { s with k := s.k + 1 }

/-- The inner asset loop, folding `assetStep` over the price row with the
ascending asset index. -/
def tradeGo (P : Params) (rng : ℕ → ℚ) : List (Option ℚ) → ℕ → St → St
  | [], _, s => s
  | p :: rest, i, s => tradeGo P rng rest (i + 1) (assetStep P rng i p s)

/-- One full trading pass over a valid row: `available_to_deploy` is reset to
`initial_capital * leverage - current_position_value`, then every asset is
processed in ascending index order. -/
def stepRow (P : Params) (rng : ℕ → ℚ) (row : List (Option ℚ)) (s : St) : St :=
  tradeGo P rng row 0
    { s with available := P.initial_capital * P.leverage - posVal s.positions row }

/-- The timestep loop of `run_simulation_jit`.  Returns the value history
from the current timestep on, a ruin flag, and the state after the loop
(unchanged when the run was ruined).  `prev` is the previously recorded
history value, initialised to `initial_capital`. -/
def simLoop (P : Params) (rng : ℕ → ℚ) :
    List (List (Option ℚ)) → St → ℚ → List ℚ × Bool × St
  | [], s, _ => ([], false, s)
  | row :: rest, s, prev =>
    if rowValid row then
      let m := s.cash + posVal s.positions row
      if m < 0 then
        (m :: List.replicate rest.length m, true, s)
      else
        let out := simLoop P rng rest (stepRow P rng row s) m
        (m :: out.1, out.2)
    else
      let out := simLoop P rng rest s prev
      (prev :: out.1, out.2)

/-- Forced end-of-run liquidation of one asset at the final price row: the
position is sold whenever it exceeds `eps` and the final price is present
and positive, with no reference to `avoid_selling_winners`. -/
def liqAsset (fee_rate : ℚ) (i : ℕ) (p? : Option ℚ) (s : St) : St :=
  match p? with
  | none => s
  | some price =>
    if eps < s.positions i ∧ 0 < price then
      let sale := s.positions i * price
      let fee := sale * fee_rate
      { s with
        cash := s.cash + (sale - fee)
        positions := Function.update s.positions i 0
        avg_cost := Function.update s.avg_cost i 0
        fees := s.fees + fee }
    else s

/-- The end-of-run liquidation loop over the final price row. -/
def liqGo (fee_rate : ℚ) : List (Option ℚ) → ℕ → St → St
  | [], _, s => s
  | p :: rest, i, s => liqGo fee_rate rest (i + 1) (liqAsset fee_rate i p s)

/-- Forced end-of-run liquidation over the final price row. -/
def liquidate (fee_rate : ℚ) (lastRow : List (Option ℚ)) (s : St) : St :=
  liqGo fee_rate lastRow 0 s

/-- Initial portfolio state of a run. -/
def initSt (P : Params) : St :=
  { cash := P.initial_capital, positions := fun _ => 0, avg_cost := fun _ => 0,
    available := 0, k := 0, fees := 0, sold := fun _ => false }

/-- The single-run simulator `run_simulation_jit`: the timestep loop followed,
on the non-ruin path, by the forced liquidation at the last price row;
returns the value history and the final PnL. -/
def run_simulation (P : Params) (rng : ℕ → ℚ) (prices : List (List (Option ℚ))) :
    List ℚ × ℚ :=
  let out := simLoop P rng prices (initSt P) P.initial_capital
  if out.2.1 then (out.1, -P.initial_capital)
  else
    let sL := liquidate P.fee_rate (prices.getLast?.getD []) out.2.2
    (out.1, sL.cash - P.initial_capital)

/-- The orchestrator `run_all_simulations_parallel`: run `i` draws from a
stream seeded `base_seed + i` (the source reseeds the thread-local numba
generator with `np.random.seed(base_seed + i)` at the top of iteration `i`);
`seedStream` maps a seed to the stream of uniform draws that generator
produces.  Results are collected by simulation index. -/
def run_all_simulations_parallel (seedStream : ℤ → ℕ → ℚ)
    (prices : List (List (Option ℚ))) (num_simulations : ℕ) (P : Params)
    (base_seed : ℤ) : List (List ℚ) × List ℚ :=
  let results := (List.range num_simulations).map
    fun i : ℕ => run_simulation P (seedStream (base_seed + (i : ℤ))) prices
  (results.map Prod.fst, results.map Prod.snd)

/-- Model of one parallel execution: a schedule lists the simulation indices
in the order their writes land; each executed index writes its own result
into its own slot.  Different thread counts and interleavings yield
different schedules over the same index set. -/
def execSched (seedStream : ℤ → ℕ → ℚ) (prices : List (List (Option ℚ)))
    (P : Params) (base_seed : ℤ) (sched : List ℕ) : ℕ → Option (List ℚ × ℚ) :=
  sched.foldl
    (fun acc i => Function.update acc i
      (some (run_simulation P (seedStream (base_seed + i)) prices)))
    fun _ => none

/-- Model of `np.isclose(x, 1.0)` with numpy defaults
`atol = 1e-8`, `rtol = 1e-5`: the test `|x - 1| <= atol + rtol * |1|`. -/
def isclose_one (x : ℚ) : Bool :=
  decide (|x - 1| ≤ 1 / 100000000 + 1 / 100000 * 1)

/-- The configuration gate of `main` in run_backtest.py: the only check made
before the simulations run is that the three probabilities sum close to 1.0;
on failure nothing runs, on success the orchestrator runs unconditionally. -/
def main_gate (seedStream : ℤ → ℕ → ℚ) (prices : List (List (Option ℚ)))
    (num_simulations : ℕ) (P : Params) (prob_sell : ℚ) (base_seed : ℤ) :
    Option (List (List ℚ) × List ℚ) :=
  if isclose_one (P.prob_hold + P.prob_buy + prob_sell) then
    some (run_all_simulations_parallel seedStream prices num_simulations P base_seed)
  else none

/-- Strictly increasing, fully present column `j` of a price matrix, with
every value above the bound `b`. -/
def strictColFrom (j : ℕ) (b : ℚ) : List (List (Option ℚ)) → Bool
  | [] => true
  | row :: rest =>
    match row.getD j none with
    | none => false
    | some v => decide (b < v) && strictColFrom j v rest

/-- Shared concrete example parameters: the run_backtest.py defaults with a
zero fee rate. -/
def pEx : Params :=
  { initial_capital := 1000, fee_rate := 0, max_buy_perc_power := 1/2,
    prob_hold := 8/10, prob_buy := 1/10, avoid_selling_winners := false,
    leverage := 15 }

/-- Shared concrete example state: a fresh portfolio of 1000 units. -/
def sEx : St :=
  { cash := 1000, positions := fun _ => 0, avg_cost := fun _ => 0,
    available := 0, k := 0, fees := 0, sold := fun _ => false }

/-- Shared concrete example stream: every draw is one half. -/
def rngHalf : ℕ → ℚ := fun _ => 1/2

/-- C5: the action drawn at `r` is buy exactly for
`prob_hold < r < prob_hold + prob_buy` (interval OPEN at the right end),
sell exactly for `prob_hold < r` with `prob_hold + prob_buy ≤ r`, and hold
exactly for `r ≤ prob_hold`; this is the amended form of the claim, whose
half-open interval `(prob_hold, prob_hold + prob_buy]` the code refutes at
the right endpoint. -/
theorem c5_action_boundaries (prob_hold prob_buy r : ℚ) :
    (actionOf prob_hold (prob_hold + prob_buy) r = 1 ↔
      prob_hold < r ∧ r < prob_hold + prob_buy) ∧
    (actionOf prob_hold (prob_hold + prob_buy) r = 2 ↔
      prob_hold < r ∧ prob_hold + prob_buy ≤ r) ∧
    (actionOf prob_hold (prob_hold + prob_buy) r = 0 ↔ r ≤ prob_hold) := by
  unfold actionOf
  split_ifs with h1 h2 <;> simp_all [not_lt, le_of_lt]

/-- C5 counterexample: with `prob_hold = 0.8`, `prob_buy = 0.1` and the draw
`r = 0.9 = prob_hold + prob_buy`, the code selects sell (2), not buy (1) as
the claim states for the right endpoint of its half-open interval. -/
theorem c5_boundary_draw_sells :
    actionOf (8/10) (8/10 + 1/10) (9/10) = 2 ∧
      actionOf (8/10) (8/10 + 1/10) (9/10) ≠ 1 := by
  with_unfolding_all decide

/-- C4 (amended): a missing or non-positive price does NOT suppress the
action draw: the draw is taken first and the validity check only skips the
trading that would follow, so the asset consumes exactly one draw and the
state is otherwise untouched. -/
theorem c4_invalid_price_consumes_draw (P : Params) (rng : ℕ → ℚ) (i : ℕ)
    (s : St) (p? : Option ℚ)
    (h : p? = none ∨ ∃ v, p? = some v ∧ v ≤ 0) :
    assetStep P rng i p? s = { s with k := s.k + 1 } := by
  rcases h with h | ⟨v, h, hv⟩
  · subst h; simp [assetStep]
  · subst h; simp [assetStep, hv]

/-- C4 witness: the amended theorem applied to a concrete missing price. -/
theorem c4_invalid_price_consumes_draw_witness :
    ((none : Option ℚ) = none ∨ ∃ v, (none : Option ℚ) = some v ∧ v ≤ 0) ∧
    assetStep pEx rngHalf 0 none sEx = { sEx with k := sEx.k + 1 } :=
  ⟨Or.inl rfl, c4_invalid_price_consumes_draw pEx rngHalf 0 sEx none (Or.inl rfl)⟩

/-- C4 counterexample: in a two-asset timestep whose first price is missing,
the run consumes two draws (one per asset), not the single draw the claim
predicts when it says no draw is consumed for the skipped asset. -/
theorem c4_skipped_asset_draw_count :
    (tradeGo pEx rngHalf [none, some 100] 0 sEx).k = 2 ∧
      (tradeGo pEx rngHalf [none, some 100] 0 sEx).k ≠ 1 := by
  with_unfolding_all decide

/-- C3 counterexample: a configuration with `initial_capital = -5 <= 0`
(and probabilities summing to 1) is NOT rejected: the gate runs the full
simulation batch and returns its results, refuting the claim that
non-positive capital aborts before any simulation starts.  The same gate
ignores `leverage` and `num_simulations` entirely. -/
theorem c3_invalid_capital_not_rejected :
    main_gate (fun _ _ => 1/2) [[some 100]] 1
        { pEx with initial_capital := -5 } (1/10) 0 ≠ none := by
  with_unfolding_all decide

/-- C3 (amended): the only configuration check performed before simulations
start is the driver checking that the probabilities sum close to 1.0; when
that check fails the driver returns before any simulation work, and no other
parameter (capital, leverage, simulation count) is validated anywhere. -/
theorem c3_gate_rejects_only_prob_sum (seedStream : ℤ → ℕ → ℚ)
    (prices : List (List (Option ℚ))) (N : ℕ) (P : Params) (ps : ℚ)
    (base : ℤ)
    (h : isclose_one (P.prob_hold + P.prob_buy + ps) = false) :
    main_gate seedStream prices N P ps base = none := by
  unfold main_gate
  simp [h]

/-- C3 witness: probabilities summing to 1.5 make the gate return nothing. -/
theorem c3_gate_rejects_only_prob_sum_witness :
    isclose_one ((1:ℚ)/2 + 1/2 + 1/2) = false ∧
    main_gate (fun _ _ => 1/2) [[some 100]] 1
        { pEx with prob_hold := 1/2, prob_buy := 1/2 } (1/2) 0 = none :=
  ⟨by with_unfolding_all decide,
   c3_gate_rejects_only_prob_sum _ _ _ _ _ _ (by with_unfolding_all decide)⟩

/-- C2: a negative mark-to-market value at a timestep ends the run there:
the history from that timestep on is filled with that very value (so every
later entry equals the entry at the ruin timestep), the loop state is
returned untouched (no further iteration, no end-of-run liquidation), and
whenever the loop reports ruin the final PnL of the run is exactly
`-initial_capital`. -/
theorem c2_ruin (P : Params) (rng : ℕ → ℚ) (row : List (Option ℚ))
    (rest : List (List (Option ℚ))) (s : St) (prev : ℚ)
    (hval : rowValid row = true)
    (hneg : s.cash + posVal s.positions row < 0) :
    simLoop P rng (row :: rest) s prev
      = ((s.cash + posVal s.positions row)
          :: List.replicate rest.length (s.cash + posVal s.positions row),
         true, s)
    ∧ (∀ prices,
        (simLoop P rng prices (initSt P) P.initial_capital).2.1 = true →
        (run_simulation P rng prices).2 = -P.initial_capital) := by
  constructor
  · simp [simLoop, hval, hneg]
  · intro prices hr
    unfold run_simulation
    simp [hr]

/-- C2 witness: a state with negative cash ruins at once on a valid row. -/
theorem c2_ruin_witness :
    (rowValid [some 1] = true ∧
      ((-5 : ℚ) + posVal (fun _ => 0) [some 1] < 0)) ∧
    simLoop pEx rngHalf [[some 1], [some 1]]
        { cash := -5, positions := fun _ => 0, avg_cost := fun _ => 0,
          available := 0, k := 0, fees := 0, sold := fun _ => false } 1000
      = (((-5 : ℚ) + posVal (fun _ => 0) [some 1])
          :: List.replicate 1 ((-5 : ℚ) + posVal (fun _ => 0) [some 1]),
         true,
         { cash := -5, positions := fun _ => 0, avg_cost := fun _ => 0,
           available := 0, k := 0, fees := 0, sold := fun _ => false }) :=
  ⟨⟨by with_unfolding_all decide, by with_unfolding_all decide⟩,
   (c2_ruin pEx rngHalf [some 1] [[some 1]]
     { cash := -5, positions := fun _ => 0, avg_cost := fun _ => 0,
       available := 0, k := 0, fees := 0, sold := fun _ => false } 1000
     (by with_unfolding_all decide) (by with_unfolding_all decide)).1⟩

/-- C6: when the mark-to-market value is NaN (the row has a missing price),
the timestep records the previous history value (`initial_capital` at the
first timestep, since that is the initial carried value), skips all trading
(the state passed on is unchanged, so cash, positions and average costs are
untouched), and the run continues; in particular on
`prices = [[NaN], [c]]` the first recorded value is `initial_capital`, and
the simulator is a total function, so no exception is raised. -/
theorem c6_nan_mtm_carries_forward (P : Params) (rng : ℕ → ℚ)
    (row : List (Option ℚ)) (rest : List (List (Option ℚ))) (s : St)
    (prev : ℚ) (hrow : rowValid row = false) :
    simLoop P rng (row :: rest) s prev
      = (prev :: (simLoop P rng rest s prev).1, (simLoop P rng rest s prev).2)
    ∧ ∀ c : ℚ,
        (run_simulation P rng [[none], [some c]]).1.headD 0
          = P.initial_capital := by
  constructor
  · simp [simLoop, hrow]
  · intro c
    have h1 : (simLoop P rng [[none], [some c]] (initSt P)
        P.initial_capital).1.headD 0 = P.initial_capital := by
      simp [simLoop, rowValid]
    unfold run_simulation
    dsimp only
    split <;> simpa using h1

/-- C6 witness: the theorem applied to the one-row matrix with one NaN. -/
theorem c6_nan_mtm_carries_forward_witness :
    rowValid [(none : Option ℚ)] = false ∧
    simLoop pEx rngHalf [[none]] sEx 1000
      = (1000 :: (simLoop pEx rngHalf [] sEx 1000).1,
         (simLoop pEx rngHalf [] sEx 1000).2) :=
  ⟨by with_unfolding_all decide,
   (c6_nan_mtm_carries_forward pEx rngHalf [none] [] sEx 1000
     (by with_unfolding_all decide)).1⟩

/-- Slot lookup after a fold of disjoint writes: an executed index holds its
own result, every other slot keeps the previous contents. -/
theorem foldl_update_mem {α : Type} (f : ℕ → α) :
    ∀ (l : List ℕ) (acc : ℕ → Option α) (i : ℕ),
      (l.foldl (fun a x => Function.update a x (some (f x))) acc) i
        = if i ∈ l then some (f i) else acc i := by
  intro l
  induction l with
  | nil => simp
  | cons a l ih =>
    intro acc i
    simp only [List.foldl_cons, List.mem_cons]
    rw [ih]
    by_cases hl : i ∈ l
    · simp [hl]
    · by_cases ha : i = a
      · subst ha; simp [hl]
      · simp [hl, ha, Function.update_noteq ha]

/-- C1: the per-index result of the batch is a pure function of
`(prices, params, base_seed + i)`: under any two execution schedules
containing index `i` (any degree of parallelism, any completion order) slot
`i` holds the same value, namely the single-run simulation of the stream
seeded `base_seed + i`, and the orchestrator output arrays hold exactly that
run history and PnL at index `i`; repeated invocations coincide because each
side of these equalities is a fixed function of the same arguments. -/
theorem c1_determinism_and_schedule_independence
    (seedStream : ℤ → ℕ → ℚ) (prices : List (List (Option ℚ))) (P : Params)
    (base : ℤ) (N : ℕ) (s1 s2 : List ℕ) (i : ℕ)
    (h1 : i ∈ s1) (h2 : i ∈ s2) (hN : i < N) :
    execSched seedStream prices P base s1 i
        = execSched seedStream prices P base s2 i
    ∧ execSched seedStream prices P base s1 i
        = some (run_simulation P (seedStream (base + i)) prices)
    ∧ (run_all_simulations_parallel seedStream prices N P base).1.get? i
        = some (run_simulation P (seedStream (base + i)) prices).1
    ∧ (run_all_simulations_parallel seedStream prices N P base).2.get? i
        = some (run_simulation P (seedStream (base + i)) prices).2 := by
  have key := fun (l : List ℕ) acc =>
    foldl_update_mem
      (fun j => run_simulation P (seedStream (base + j)) prices) l acc i
  refine ⟨?_, ?_, ?_, ?_⟩
  · unfold execSched; rw [key, key]; simp [h1, h2]
  · unfold execSched; rw [key]; simp [h1]
  · unfold run_all_simulations_parallel
    dsimp only
    rw [List.map_map, List.get?_map, List.get?_range hN]
    rfl
  · unfold run_all_simulations_parallel
    dsimp only
    rw [List.map_map, List.get?_map, List.get?_range hN]
    rfl

/-- C1 witness: two schedules of two runs in opposite orders agree on the
slot of run 0. -/
theorem c1_witness :
    ((0 : ℕ) ∈ [0, 1] ∧ (0 : ℕ) ∈ [1, 0] ∧ (0 : ℕ) < 2) ∧
    execSched (fun _ _ => 1/2) [[some 100]] pEx 0 [0, 1] 0
      = execSched (fun _ _ => 1/2) [[some 100]] pEx 0 [1, 0] 0 :=
  ⟨⟨by decide, by decide, by decide⟩,
   (c1_determinism_and_schedule_independence (fun _ _ => 1/2) [[some 100]]
     pEx 0 2 [0, 1] [1, 0] 0 (by decide) (by decide) (by decide)).1⟩

/-- The dust threshold is positive. -/
theorem eps_pos : 0 < eps := by norm_num [eps]

/-- The buy branch never writes any other asset's slots. -/
theorem buyBranch_ne (P : Params) (i : ℕ) (price perc : ℚ) (s : St) (j : ℕ)
    (hj : j ≠ i) :
    (buyBranch P i price perc s).positions j = s.positions j
    ∧ (buyBranch P i price perc s).avg_cost j = s.avg_cost j
    ∧ (buyBranch P i price perc s).sold j = s.sold j := by
  unfold buyBranch
  dsimp only
  split_ifs <;> simp [Function.update_noteq hj]

/-- The sell branch never writes any other asset's slots. -/
theorem sellBranch_ne (P : Params) (i : ℕ) (price : ℚ) (s : St) (j : ℕ)
    (hj : j ≠ i) :
    (sellBranch P i price s).positions j = s.positions j
    ∧ (sellBranch P i price s).avg_cost j = s.avg_cost j
    ∧ (sellBranch P i price s).sold j = s.sold j := by
  unfold sellBranch
  dsimp only
  split_ifs <;> simp [Function.update_noteq hj]

/-- An asset iteration never writes any other asset's position. -/
theorem assetStep_positions_ne (P : Params) (rng : ℕ → ℚ) (i : ℕ)
    (p? : Option ℚ) (s : St) (j : ℕ) (hj : j ≠ i) :
    (assetStep P rng i p? s).positions j = s.positions j := by
  cases p? with
  | none => simp [assetStep]
  | some price =>
    simp only [assetStep]
    split_ifs <;>
      simp [(buyBranch_ne P i price _ s j hj).1, (sellBranch_ne P i price s j hj).1]

/-- An asset iteration never writes any other asset's average cost. -/
theorem assetStep_avg_ne (P : Params) (rng : ℕ → ℚ) (i : ℕ)
    (p? : Option ℚ) (s : St) (j : ℕ) (hj : j ≠ i) :
    (assetStep P rng i p? s).avg_cost j = s.avg_cost j := by
  cases p? with
  | none => simp [assetStep]
  | some price =>
    simp only [assetStep]
    split_ifs <;>
      simp [(buyBranch_ne P i price _ s j hj).2.1, (sellBranch_ne P i price s j hj).2.1]

/-- An asset iteration never writes any other asset's sold flag. -/
theorem assetStep_sold_ne (P : Params) (rng : ℕ → ℚ) (i : ℕ)
    (p? : Option ℚ) (s : St) (j : ℕ) (hj : j ≠ i) :
    (assetStep P rng i p? s).sold j = s.sold j := by
  cases p? with
  | none => simp [assetStep]
  | some price =>
    simp only [assetStep]
    split_ifs <;>
      simp [(buyBranch_ne P i price _ s j hj).2.2, (sellBranch_ne P i price s j hj).2.2]

/-- Exact value accounting of the buy branch at a non-zero price. -/
theorem buyBranch_conserve (P : Params) (i : ℕ) (price perc : ℚ) (s : St)
    (hp : price ≠ 0) :
    (buyBranch P i price perc s).cash
        + (buyBranch P i price perc s).positions i * price
      = s.cash + s.positions i * price
        - ((buyBranch P i price perc s).fees - s.fees) := by
  unfold buyBranch
  dsimp only
  split_ifs with hc hA hA
  · simp only [Function.update_same]
    rw [add_mul, div_mul_cancel₀ _ hp]
    ring
  · ring
  · simp only [Function.update_same]
    rw [add_mul, div_mul_cancel₀ _ hp]
    ring
  · ring

/-- Exact value accounting of the sell branch. -/
theorem sellBranch_conserve (P : Params) (i : ℕ) (price : ℚ) (s : St) :
    (sellBranch P i price s).cash
        + (sellBranch P i price s).positions i * price
      = s.cash + s.positions i * price
        - ((sellBranch P i price s).fees - s.fees) := by
  unfold sellBranch
  dsimp only
  split_ifs <;>
    first
    | ring1
    | (simp only [Function.update_same]; ring)

/-- Exact value accounting of one asset iteration: cash plus the value of
this asset's position at this price changes by exactly the fee charged. -/
theorem assetStep_conserve (P : Params) (rng : ℕ → ℚ) (i : ℕ)
    (p? : Option ℚ) (s : St) :
    (assetStep P rng i p? s).cash
        + (assetStep P rng i p? s).positions i * priceVal p?
      = s.cash + s.positions i * priceVal p?
        - ((assetStep P rng i p? s).fees - s.fees) := by
  cases p? with
  | none => simp [assetStep, priceVal]
  | some price =>
    simp only [assetStep, priceVal, Option.getD_some]
    split_ifs with h1 h2 h3
    · ring
    · exact buyBranch_conserve P i price _ s (ne_of_gt (lt_of_not_le h1))
    · exact sellBranch_conserve P i price s
    · ring

/-- Fees accumulated by the buy branch are non-negative. -/
theorem buyBranch_fees_mono (P : Params) (i : ℕ) (price perc : ℚ) (s : St)
    (hfr : 0 ≤ P.fee_rate) :
    s.fees ≤ (buyBranch P i price perc s).fees := by
  unfold buyBranch
  dsimp only
  split_ifs with hc hA hA <;> dsimp only
  · nlinarith [mul_nonneg (by linarith : (0:ℚ) ≤ s.available) hfr]
  · rfl
  · nlinarith [mul_nonneg (by linarith : (0:ℚ) ≤ s.available * perc) hfr]
  · rfl

/-- Fees accumulated by the sell branch are non-negative when the position
is above the dust threshold and the price is positive. -/
theorem sellBranch_fees_mono (P : Params) (i : ℕ) (price : ℚ) (s : St)
    (hfr : 0 ≤ P.fee_rate) (hp : 0 < price) (hpos : 0 < s.positions i) :
    s.fees ≤ (sellBranch P i price s).fees := by
  unfold sellBranch
  dsimp only
  split_ifs <;> dsimp only <;>
    first
    | rfl
    | nlinarith [mul_nonneg (le_of_lt (mul_pos hpos hp)) hfr]

/-- Fees accumulated by one asset iteration are non-negative. -/
theorem assetStep_fees_mono (P : Params) (rng : ℕ → ℚ) (i : ℕ)
    (p? : Option ℚ) (s : St) (hfr : 0 ≤ P.fee_rate) :
    s.fees ≤ (assetStep P rng i p? s).fees := by
  cases p? with
  | none => simp [assetStep]
  | some price =>
    simp only [assetStep]
    split_ifs with h1 h2 h3
    · rfl
    · exact buyBranch_fees_mono P i price _ s hfr
    · exact sellBranch_fees_mono P i price s hfr (lt_of_not_le h1)
        (lt_trans eps_pos h3.2)
    · rfl

/-- The inner loop never writes positions below its starting index. -/
theorem tradeGo_positions_lt (P : Params) (rng : ℕ → ℚ) :
    ∀ (l : List (Option ℚ)) (i : ℕ) (s : St) (m : ℕ), m < i →
      (tradeGo P rng l i s).positions m = s.positions m := by
  intro l
  induction l with
  | nil => intro i s m _; rfl
  | cons p rest ih =>
    intro i s m hm
    simp only [tradeGo]
    rw [ih (i + 1) _ m (Nat.lt_succ_of_lt hm),
       assetStep_positions_ne _ _ _ _ _ _ (Nat.ne_of_lt hm)]

/-- The inner loop never writes average costs below its starting index. -/
theorem tradeGo_avg_lt (P : Params) (rng : ℕ → ℚ) :
    ∀ (l : List (Option ℚ)) (i : ℕ) (s : St) (m : ℕ), m < i →
      (tradeGo P rng l i s).avg_cost m = s.avg_cost m := by
  intro l
  induction l with
  | nil => intro i s m _; rfl
  | cons p rest ih =>
    intro i s m hm
    simp only [tradeGo]
    rw [ih (i + 1) _ m (Nat.lt_succ_of_lt hm),
       assetStep_avg_ne _ _ _ _ _ _ (Nat.ne_of_lt hm)]

/-- The inner loop never writes sold flags below its starting index. -/
theorem tradeGo_sold_lt (P : Params) (rng : ℕ → ℚ) :
    ∀ (l : List (Option ℚ)) (i : ℕ) (s : St) (m : ℕ), m < i →
      (tradeGo P rng l i s).sold m = s.sold m := by
  intro l
  induction l with
  | nil => intro i s m _; rfl
  | cons p rest ih =>
    intro i s m hm
    simp only [tradeGo]
    rw [ih (i + 1) _ m (Nat.lt_succ_of_lt hm),
       assetStep_sold_ne _ _ _ _ _ _ (Nat.ne_of_lt hm)]

/-- Exact value accounting of the inner loop: cash plus the position value
over the processed slice changes by exactly the fees charged in the slice. -/
theorem tradeGo_wealth (P : Params) (rng : ℕ → ℚ) :
    ∀ (l : List (Option ℚ)) (i : ℕ) (s : St),
      (tradeGo P rng l i s).cash
        + ∑ n ∈ Finset.range l.length,
            (tradeGo P rng l i s).positions (i + n) * priceVal (l.getD n none)
      = s.cash + ∑ n ∈ Finset.range l.length,
            s.positions (i + n) * priceVal (l.getD n none)
        - ((tradeGo P rng l i s).fees - s.fees) := by
  intro l
  induction l with
  | nil => intro i s; simp [tradeGo]
  | cons p rest ih =>
    intro i s
    simp only [tradeGo, List.length_cons]
    have hstep := assetStep_conserve P rng i p s
    have hT := ih (i + 1) (assetStep P rng i p s)
    have hshift : ∀ s2 : St,
        (∑ n ∈ Finset.range (rest.length + 1),
          s2.positions (i + n) * priceVal ((p :: rest).getD n none))
        = (∑ n ∈ Finset.range rest.length,
            s2.positions ((i + 1) + n) * priceVal (rest.getD n none))
          + s2.positions i * priceVal p := by
      intro s2
      rw [Finset.sum_range_succ']
      simp only [List.getD_cons_succ, List.getD_cons_zero, Nat.add_zero]
      have hcg : ∀ n ∈ Finset.range rest.length,
          s2.positions (i + (n + 1)) * priceVal (rest.getD n none)
            = s2.positions (i + 1 + n) * priceVal (rest.getD n none) :=
        fun n _ => by rw [show i + (n + 1) = i + 1 + n from by omega]
      rw [Finset.sum_congr rfl hcg]
    rw [hshift, hshift]
    have hTfix : (tradeGo P rng rest (i + 1) (assetStep P rng i p s)).positions i
        = (assetStep P rng i p s).positions i :=
      tradeGo_positions_lt P rng rest (i + 1) _ i (Nat.lt_succ_self i)
    have hsame : (∑ n ∈ Finset.range rest.length,
          (assetStep P rng i p s).positions ((i + 1) + n)
            * priceVal (rest.getD n none))
        = (∑ n ∈ Finset.range rest.length,
            s.positions ((i + 1) + n) * priceVal (rest.getD n none)) :=
      Finset.sum_congr rfl fun n _ => by
        rw [assetStep_positions_ne _ _ _ _ _ _ (by omega)]
    rw [hTfix]
    rw [hsame] at hT
    linarith

/-- Fees accumulated by the inner loop are non-negative. -/
theorem tradeGo_fees_mono (P : Params) (rng : ℕ → ℚ)
    (hfr : 0 ≤ P.fee_rate) :
    ∀ (l : List (Option ℚ)) (i : ℕ) (s : St),
      s.fees ≤ (tradeGo P rng l i s).fees := by
  intro l
  induction l with
  | nil => intro i s; exact le_refl _
  | cons p rest ih =>
    intro i s
    exact le_trans (assetStep_fees_mono P rng i p s hfr)
      (ih (i + 1) (assetStep P rng i p s))

/-- Position value of a row as the slice sum processed by the inner loop
starting at index 0. -/
theorem posVal_eq_slice (pos : ℕ → ℚ) (row : List (Option ℚ)) :
    posVal pos row
      = ∑ n ∈ Finset.range row.length, pos (0 + n) * priceVal (row.getD n none) := by
  unfold posVal
  exact Finset.sum_congr rfl fun n _ => by rw [Nat.zero_add]

/-- Exact value accounting of one full trading pass: cash plus position
value at the prices of the row changes by exactly the fees of the pass. -/
theorem stepRow_wealth (P : Params) (rng : ℕ → ℚ) (row : List (Option ℚ))
    (s : St) :
    (stepRow P rng row s).cash + posVal (stepRow P rng row s).positions row
      = s.cash + posVal s.positions row
        - ((stepRow P rng row s).fees - s.fees) := by
  unfold stepRow
  have h := tradeGo_wealth P rng row 0
    { s with available := P.initial_capital * P.leverage - posVal s.positions row }
  rw [← posVal_eq_slice, ← posVal_eq_slice] at h
  exact h

/-- Fees accumulated by one full trading pass are non-negative. -/
theorem stepRow_fees_mono (P : Params) (rng : ℕ → ℚ) (row : List (Option ℚ))
    (s : St) (hfr : 0 ≤ P.fee_rate) :
    s.fees ≤ (stepRow P rng row s).fees := by
  unfold stepRow
  exact tradeGo_fees_mono P rng hfr row 0 _

/-- Cumulative fees never decrease across the timestep loop. -/
theorem simLoop_fees_mono (P : Params) (rng : ℕ → ℚ) (hfr : 0 ≤ P.fee_rate) :
    ∀ (rows : List (List (Option ℚ))) (s : St) (prev : ℚ),
      s.fees ≤ (simLoop P rng rows s prev).2.2.fees := by
  intro rows
  induction rows with
  | nil => intro s prev; exact le_refl _
  | cons row rest ih =>
    intro s prev
    by_cases hv : rowValid row
    · by_cases hm : s.cash + posVal s.positions row < 0
      · simp [simLoop, hv, hm]
      · have h1 := stepRow_fees_mono P rng row s hfr
        have h2 := ih (stepRow P rng row s) (s.cash + posVal s.positions row)
        simp only [simLoop, hv, hm, if_true, if_false]
        simpa using le_trans h1 h2
    · have hvf : rowValid row = false := by simpa using hv
      simp only [simLoop, hvf]
      simpa using ih s prev

/-- Fees accumulated by liquidating one asset are non-negative. -/
theorem liqAsset_fees_mono (fr : ℚ) (i : ℕ) (p? : Option ℚ) (s : St)
    (hfr : 0 ≤ fr) :
    s.fees ≤ (liqAsset fr i p? s).fees := by
  cases p? with
  | none => exact le_refl _
  | some price =>
    simp only [liqAsset]
    split_ifs with h
    · dsimp only
      nlinarith [mul_nonneg
        (mul_nonneg (le_of_lt (lt_trans eps_pos h.1)) (le_of_lt h.2)) hfr]
    · exact le_refl _

/-- Fees accumulated by the forced liquidation loop are non-negative. -/
theorem liqGo_fees_mono (fr : ℚ) (hfr : 0 ≤ fr) :
    ∀ (row : List (Option ℚ)) (i : ℕ) (s : St),
      s.fees ≤ (liqGo fr row i s).fees := by
  intro row
  induction row with
  | nil => intro i s; exact le_refl _
  | cons p rest ih =>
    intro i s
    exact le_trans (liqAsset_fees_mono fr i p s hfr) (ih (i + 1) _)

/-- C7: the recorded mark-to-market value of a valid timestep is exactly
`cash + sum positions[i]*price[t][i]`; one full trading pass at those
prices changes cash plus position value by exactly the fees it charges
(value leaves the system only through the fee term of each buy and sell),
and the accumulated fees are non-negative and never decrease, neither
across the trading pass nor across the remaining run nor in the final
liquidation. -/
theorem c7_value_conservation (P : Params) (rng : ℕ → ℚ)
    (row : List (Option ℚ)) (s : St)
    (hfr : 0 ≤ P.fee_rate) (hrow : rowValid row = true) :
    ((stepRow P rng row s).cash + posVal (stepRow P rng row s).positions row
      = s.cash + posVal s.positions row
        - ((stepRow P rng row s).fees - s.fees))
    ∧ s.fees ≤ (stepRow P rng row s).fees
    ∧ (∀ rest prev, (simLoop P rng (row :: rest) s prev).1.headD 0
        = s.cash + posVal s.positions row)
    ∧ (∀ rows prev, s.fees ≤ (simLoop P rng rows s prev).2.2.fees)
    ∧ (∀ lastRow, s.fees ≤ (liquidate P.fee_rate lastRow s).fees) := by
  refine ⟨stepRow_wealth P rng row s, stepRow_fees_mono P rng row s hfr,
    ?_, ?_, ?_⟩
  · intro rest prev
    by_cases hm : s.cash + posVal s.positions row < 0 <;>
      simp [simLoop, hrow, hm]
  · intro rows prev
    exact simLoop_fees_mono P rng hfr rows s prev
  · intro lastRow
    exact liqGo_fees_mono P.fee_rate hfr lastRow 0 s

/-- C7 witness: the conservation identity evaluated on one valid row. -/
theorem c7_value_conservation_witness :
    ((0:ℚ) ≤ pEx.fee_rate ∧ rowValid [some 100] = true) ∧
    ((stepRow pEx rngHalf [some 100] sEx).cash
        + posVal (stepRow pEx rngHalf [some 100] sEx).positions [some 100]
      = sEx.cash + posVal sEx.positions [some 100]
        - ((stepRow pEx rngHalf [some 100] sEx).fees - sEx.fees)) :=
  ⟨⟨by with_unfolding_all decide, by with_unfolding_all decide⟩,
   (c7_value_conservation pEx rngHalf [some 100] sEx
     (by with_unfolding_all decide) (by with_unfolding_all decide)).1⟩

/-- Liquidating one asset never writes any other asset's position. -/
theorem liqAsset_positions_ne (fr : ℚ) (i : ℕ) (p? : Option ℚ) (s : St)
    (j : ℕ) (hj : j ≠ i) :
    (liqAsset fr i p? s).positions j = s.positions j := by
  cases p? with
  | none => rfl
  | some price =>
    simp only [liqAsset]
    split_ifs <;> simp [Function.update_noteq hj]

/-- The liquidation loop never writes positions below its starting index. -/
theorem liqGo_positions_lt (fr : ℚ) :
    ∀ (row : List (Option ℚ)) (i : ℕ) (s : St) (m : ℕ), m < i →
      (liqGo fr row i s).positions m = s.positions m := by
  intro row
  induction row with
  | nil => intro i s m _; rfl
  | cons p rest ih =>
    intro i s m hm
    simp only [liqGo]
    rw [ih (i + 1) _ m (Nat.lt_succ_of_lt hm),
      liqAsset_positions_ne fr i p s m (Nat.ne_of_lt hm)]

/-- A missing or non-positive final price skips the asset entirely in the
forced liquidation. -/
theorem liqAsset_invalid (fr : ℚ) (i : ℕ) (p? : Option ℚ) (s : St)
    (h : p? = none ∨ priceVal p? ≤ 0) :
    liqAsset fr i p? s = s := by
  cases p? with
  | none => rfl
  | some price =>
    rcases h with h | h
    · exact absurd h (by simp)
    · simp only [liqAsset]
      rw [if_neg]
      rintro ⟨_, hpos⟩
      simp only [priceVal, Option.getD_some] at h
      linarith

/-- The liquidation loop leaves a position with a missing or non-positive
final price untouched. -/
theorem liqGo_invalid_pos (fr : ℚ) :
    ∀ (row : List (Option ℚ)) (n i : ℕ) (s : St),
      (row.getD n none = none ∨ priceVal (row.getD n none) ≤ 0) →
      (liqGo fr row i s).positions (i + n) = s.positions (i + n) := by
  intro row
  induction row with
  | nil => intro n i s _; rfl
  | cons p rest ih =>
    intro n i s h
    cases n with
    | zero =>
      have hskip : liqAsset fr i p s = s :=
        liqAsset_invalid fr i p s (by simpa using h)
      simp only [liqGo, hskip, Nat.add_zero]
      exact liqGo_positions_lt fr rest (i + 1) s i (Nat.lt_succ_self i)
    | succ m =>
      have h' : rest.getD m none = none ∨ priceVal (rest.getD m none) ≤ 0 := by
        simpa using h
      simp only [liqGo]
      rw [show i + (m + 1) = (i + 1) + m from by omega,
        ih m (i + 1) (liqAsset fr i p s) h',
        liqAsset_positions_ne fr i p s _ (by omega)]

/-- The liquidation loop commutes with overwriting a position slot below its
starting index: that slot is neither read nor written. -/
theorem liqGo_update_lt (fr q : ℚ) :
    ∀ (row : List (Option ℚ)) (i : ℕ) (s : St) (m : ℕ), m < i →
      liqGo fr row i { s with positions := Function.update s.positions m q }
        = { liqGo fr row i s with
            positions := Function.update (liqGo fr row i s).positions m q } := by
  intro row
  induction row with
  | nil => intro i s m _; rfl
  | cons p rest ih =>
    intro i s m hm
    simp only [liqGo]
    have hA : liqAsset fr i p { s with positions := Function.update s.positions m q }
        = { liqAsset fr i p s with
            positions := Function.update (liqAsset fr i p s).positions m q } := by
      cases p with
      | none => rfl
      | some price =>
        simp only [liqAsset]
        rw [Function.update_noteq (show i ≠ m by omega)]
        split_ifs
        · rw [Function.update_comm (show m ≠ i by omega) q (0:ℚ) s.positions]
        · rfl
    rw [hA, ih (i + 1) (liqAsset fr i p s) m (Nat.lt_succ_of_lt hm)]

/-- Overwriting the position of an asset whose final price is missing or
non-positive commutes with the whole liquidation loop: that asset is never
read, so in particular the resulting cash is unchanged. -/
theorem liqGo_update_invalid (fr q : ℚ) :
    ∀ (row : List (Option ℚ)) (n i : ℕ) (s : St),
      (row.getD n none = none ∨ priceVal (row.getD n none) ≤ 0) →
      liqGo fr row i { s with positions := Function.update s.positions (i + n) q }
        = { liqGo fr row i s with
            positions := Function.update (liqGo fr row i s).positions (i + n) q } := by
  intro row
  induction row with
  | nil => intro n i s _; rfl
  | cons p rest ih =>
    intro n i s h
    cases n with
    | zero =>
      have h0 : p = none ∨ priceVal p ≤ 0 := by simpa using h
      have hs1 := liqAsset_invalid fr i p
        { s with positions := Function.update s.positions (i + 0) q } h0
      have hs2 := liqAsset_invalid fr i p s h0
      simp only [liqGo, hs1, hs2]
      exact liqGo_update_lt fr q rest (i + 1) s (i + 0) (by omega)
    | succ m =>
      have h' : rest.getD m none = none ∨ priceVal (rest.getD m none) ≤ 0 := by
        simpa using h
      simp only [liqGo]
      have hA : liqAsset fr i p
          { s with positions := Function.update s.positions (i + (m + 1)) q }
          = { liqAsset fr i p s with
              positions :=
                Function.update (liqAsset fr i p s).positions (i + (m + 1)) q } := by
        cases p with
        | none => rfl
        | some price =>
          simp only [liqAsset]
          rw [Function.update_noteq (show i ≠ i + (m + 1) by omega)]
          split_ifs
          · rw [Function.update_comm (show i + (m + 1) ≠ i by omega) q (0:ℚ)
              s.positions]
          · rfl
      rw [hA, show i + (m + 1) = (i + 1) + m from by omega,
        ih m (i + 1) (liqAsset fr i p s) h']

/-- C9: an asset whose final-row price is missing or non-positive is not
sold by the forced end-of-run liquidation: its position survives unchanged,
the liquidated cash is the same whatever that position holds (so the held
value contributes nothing), and on every non-ruined run the final PnL is
exactly the liquidated cash minus `initial_capital`, hence excludes that
position entirely. -/
theorem c9_unliquidatable_position (fr : ℚ) (row : List (Option ℚ)) (s : St)
    (j : ℕ) (q : ℚ)
    (h : row.getD j none = none ∨ priceVal (row.getD j none) ≤ 0) :
    (liquidate fr row s).positions j = s.positions j
    ∧ (liquidate fr row
          { s with positions := Function.update s.positions j q }).cash
        = (liquidate fr row s).cash
    ∧ (∀ P rng prices,
        (simLoop P rng prices (initSt P) P.initial_capital).2.1 = false →
        (run_simulation P rng prices).2
          = (liquidate P.fee_rate (prices.getLast?.getD [])
              (simLoop P rng prices (initSt P) P.initial_capital).2.2).cash
            - P.initial_capital) := by
  refine ⟨?_, ?_, ?_⟩
  · have h0 := liqGo_invalid_pos fr row j 0 s (by simpa using h)
    simpa using h0
  · have h0 := liqGo_update_invalid fr q row j 0 s (by simpa using h)
    simp only [Nat.zero_add] at h0
    unfold liquidate
    rw [h0]
  · intro P rng prices hr
    unfold run_simulation
    simp [hr]

/-- C9 witness: a held position of 5 units with a missing final price
survives the liquidation. -/
theorem c9_unliquidatable_position_witness :
    (([none] : List (Option ℚ)).getD 0 none = none
      ∨ priceVal (([none] : List (Option ℚ)).getD 0 none) ≤ 0) ∧
    (liquidate (1/1000) [none]
        { cash := 1000, positions := fun _ => 5, avg_cost := fun _ => 100,
          available := 0, k := 0, fees := 0, sold := fun _ => false }).positions 0
      = (5 : ℚ) :=
  ⟨Or.inl rfl,
   (c9_unliquidatable_position (1/1000) [none]
     { cash := 1000, positions := fun _ => 5, avg_cost := fun _ => 100,
       available := 0, k := 0, fees := 0, sold := fun _ => false } 0 0
     (Or.inl rfl)).1⟩

/-- Concrete stream for the leverage example: buy at the first asset draw,
take a large buy fraction, then hold. -/
def rngBuy : ℕ → ℚ := fun n => if n = 0 then 85/100 else if n = 1 then 98/100 else 1/2

/-- Concrete state at the first trading pass of the leverage example:
fresh 1000-unit portfolio with `available_to_deploy = 15000`. -/
def sBuy : St :=
  { cash := 1000, positions := fun _ => 0, avg_cost := fun _ => 0,
    available := 15000, k := 0, fees := 0, sold := fun _ => false }

/-- C10: the buy branch is gated only by `available_to_deploy > 1` and by
the drawn amount exceeding 1; there is no condition on the cash balance,
and cash is debited the full gross amount, whatever its sign and whatever
the resulting sign.  With leverage above 1 this drives cash negative
mid-run while the run keeps trading normally as long as the mark-to-market
value stays non-negative (see the witness for a concrete such run). -/
theorem c10_buy_ignores_cash (P : Params) (rng : ℕ → ℚ) (i : ℕ) (s : St)
    (price : ℚ)
    (hr1 : P.prob_hold < rng s.k)
    (hr2 : rng s.k < P.prob_hold + P.prob_buy)
    (hp : 0 < price) (hav : 1 < s.available)
    (amount : ℚ)
    (hamt : amount =
      (if s.available
          < s.available * (1 / 100 + rng (s.k + 1) * (P.max_buy_perc_power - 1 / 100))
        then s.available
        else s.available * (1 / 100 + rng (s.k + 1) * (P.max_buy_perc_power - 1 / 100))))
    (h1 : 1 < amount) :
    (assetStep P rng i (some price) s).cash = s.cash - amount
    ∧ (assetStep P rng i (some price) s).positions i
        = s.positions i + (amount - amount * P.fee_rate) / price
    ∧ (assetStep P rng i (some price) s).available = s.available - amount := by
  have hact : actionOf P.prob_hold (P.prob_hold + P.prob_buy) (rng s.k) = 1 := by
    unfold actionOf
    rw [if_pos hr1, if_pos hr2]
  simp only [assetStep, hact]
  rw [if_neg (not_le.mpr hp), if_pos (⟨trivial, hav⟩ : True ∧ 1 < s.available)]
  unfold buyBranch
  dsimp only
  rw [← hamt, if_pos h1]
  refine ⟨rfl, ?_, rfl⟩
  simp [Function.update_same]

/-- C10 witness: the buy at t = 0 of a concrete 15x-leverage run debits
7353 units from a 1000-unit cash balance, leaving cash at -6353; the same
run is never ruined and ends with zero PnL. -/
theorem c10_buy_ignores_cash_witness :
    (assetStep pEx rngBuy 0 (some 100) sBuy).cash = sBuy.cash - 7353
    ∧ (assetStep pEx rngBuy 0 (some 100) sBuy).cash < 0
    ∧ (simLoop pEx rngBuy [[some 100], [some 100]] (initSt pEx) 1000).2.1 = false
    ∧ (run_simulation pEx rngBuy [[some 100], [some 100]]).2 = 0 :=
  ⟨(c10_buy_ignores_cash pEx rngBuy 0 sBuy 100
      (by norm_num [pEx, rngBuy, sBuy]) (by norm_num [pEx, rngBuy, sBuy])
      (by norm_num) (by norm_num [sBuy])
      7353 (by norm_num [pEx, rngBuy, sBuy]) (by norm_num)).1,
   by norm_num [assetStep, buyBranch, actionOf, pEx, rngBuy, sBuy, eps,
     Function.update],
   by norm_num [simLoop, stepRow, tradeGo, assetStep, buyBranch, sellBranch,
     actionOf, rngBuy, pEx, initSt, posVal, rowValid, priceVal, eps,
     Function.update, Finset.sum_range_succ, Finset.sum_range_zero],
   by norm_num [run_simulation, simLoop, stepRow, tradeGo, assetStep, buyBranch,
     sellBranch, actionOf, rngBuy, pEx, initSt, posVal, rowValid, priceVal, eps,
     liquidate, liqGo, liqAsset, Function.update, Finset.sum_range_succ,
     Finset.sum_range_zero]⟩

/-- Arithmetic of the volume-weighted average update: buying the quantity
`(A - A*fee)/v > 0` at price `v` keeps the position non-negative and the
average cost at or below `v` whenever it was below `v` before or the
position was empty. -/
theorem buy_update_inv (fr A v oldq olda : ℚ)
    (hfr : fr < 1) (hv : 0 < v) (hA : 1 < A)
    (hpos : 0 ≤ oldq) (hinv : oldq = 0 ∨ olda < v) :
    0 ≤ oldq + (A - A * fr) / v
    ∧ (oldq * olda + ((A - A * fr) / v) * v) / (oldq + (A - A * fr) / v) ≤ v := by
  have hqty : 0 < (A - A * fr) / v := by
    apply div_pos _ hv
    nlinarith [mul_pos (show (0:ℚ) < A by linarith) (show (0:ℚ) < 1 - fr by linarith)]
  refine ⟨by linarith, ?_⟩
  have hden : 0 < oldq + (A - A * fr) / v := by linarith
  rw [div_le_iff hden]
  rcases hinv with h0 | hlt
  · rw [h0]
    exact le_of_eq (by ring)
  · nlinarith [mul_le_mul_of_nonneg_left (le_of_lt hlt) hpos]

/-- With the avoid flag set, the sell branch is a no-op on a position whose
average cost is strictly below the current price. -/
theorem sellBranch_winner_skip (P : Params) (j : ℕ) (v : ℚ) (s : St)
    (havoid : P.avoid_selling_winners = true) (hlt : s.avg_cost j < v) :
    sellBranch P j v s = { s with k := s.k + 1 } := by
  unfold sellBranch
  rw [havoid]
  simp [not_le.mpr hlt]

/-- A buy at price `v` keeps the winner invariant for this asset. -/
theorem buyBranch_winner_inv (P : Params) (j : ℕ) (v perc : ℚ) (s : St)
    (hfr : P.fee_rate < 1) (hv : 0 < v) (hpos : 0 ≤ s.positions j)
    (hinv : s.positions j = 0 ∨ s.avg_cost j < v) :
    (buyBranch P j v perc s).sold j = s.sold j
    ∧ 0 ≤ (buyBranch P j v perc s).positions j
    ∧ ((buyBranch P j v perc s).positions j = 0
        ∨ (buyBranch P j v perc s).avg_cost j ≤ v) := by
  unfold buyBranch
  dsimp only
  split_ifs with hc hA hA
  · have h := buy_update_inv P.fee_rate s.available v (s.positions j)
      (s.avg_cost j) hfr hv hA hpos hinv
    refine ⟨rfl, ?_, Or.inr ?_⟩
    · simpa [Function.update_same] using h.1
    · simpa [Function.update_same] using h.2
  · exact ⟨rfl, hpos, Or.imp_right le_of_lt hinv⟩
  · have h := buy_update_inv P.fee_rate (s.available * perc) v (s.positions j)
      (s.avg_cost j) hfr hv hA hpos hinv
    refine ⟨rfl, ?_, Or.inr ?_⟩
    · simpa [Function.update_same] using h.1
    · simpa [Function.update_same] using h.2
  · exact ⟨rfl, hpos, Or.imp_right le_of_lt hinv⟩

/-- One inner-loop iteration on asset `j` itself preserves the winner
invariant: the sell branch is skipped (the position is in profit) and a buy
keeps the average cost at or below the current price. -/
theorem assetStep_winner_inv (P : Params) (rng : ℕ → ℚ) (j : ℕ) (v : ℚ)
    (s : St)
    (havoid : P.avoid_selling_winners = true) (hfr : P.fee_rate < 1)
    (hsold : s.sold j = false) (hpos : 0 ≤ s.positions j)
    (hinv : s.positions j = 0 ∨ s.avg_cost j < v) :
    (assetStep P rng j (some v) s).sold j = false
    ∧ 0 ≤ (assetStep P rng j (some v) s).positions j
    ∧ ((assetStep P rng j (some v) s).positions j = 0
        ∨ (assetStep P rng j (some v) s).avg_cost j ≤ v) := by
  simp only [assetStep]
  split_ifs with h1 h2 h3
  · exact ⟨hsold, hpos, Or.imp_right le_of_lt hinv⟩
  · have h := buyBranch_winner_inv P j v
      (1 / 100 + rng (s.k + 1) * (P.max_buy_perc_power - 1 / 100)) s
      hfr (lt_of_not_le h1) hpos hinv
    exact ⟨h.1.trans hsold, h.2.1, h.2.2⟩
  · have hp0 : 0 < s.positions j := lt_trans eps_pos h3.2
    have hlt : s.avg_cost j < v := by
      rcases hinv with h0 | h
      · exact absurd h0 (ne_of_gt hp0)
      · exact h
    rw [sellBranch_winner_skip P j v s havoid hlt]
    exact ⟨hsold, hpos, Or.imp_right le_of_lt hinv⟩
  · exact ⟨hsold, hpos, Or.imp_right le_of_lt hinv⟩

/-- The whole inner loop preserves the winner invariant for an asset whose
price this timestep is `v`. -/
theorem tradeGo_winner_inv (P : Params) (rng : ℕ → ℚ) (j : ℕ) (v : ℚ)
    (havoid : P.avoid_selling_winners = true) (hfr : P.fee_rate < 1) :
    ∀ (l : List (Option ℚ)) (i : ℕ) (s : St),
      (∀ n, i + n = j → n < l.length → l.getD n none = some v) →
      s.sold j = false → 0 ≤ s.positions j →
      (s.positions j = 0 ∨ s.avg_cost j < v) →
      (tradeGo P rng l i s).sold j = false
      ∧ 0 ≤ (tradeGo P rng l i s).positions j
      ∧ ((tradeGo P rng l i s).positions j = 0
          ∨ (tradeGo P rng l i s).avg_cost j ≤ v) := by
  intro l
  induction l with
  | nil =>
    intro i s _ hsold hpos hinv
    exact ⟨hsold, hpos, Or.imp_right le_of_lt hinv⟩
  | cons p rest ih =>
    intro i s hcol hsold hpos hinv
    by_cases hij : i = j
    · subst hij
      have hp : p = some v := by
        simpa using hcol 0 (by omega) (by simp)
      subst hp
      simp only [tradeGo]
      rw [tradeGo_sold_lt P rng rest (i + 1) _ i (Nat.lt_succ_self i),
        tradeGo_positions_lt P rng rest (i + 1) _ i (Nat.lt_succ_self i),
        tradeGo_avg_lt P rng rest (i + 1) _ i (Nat.lt_succ_self i)]
      exact assetStep_winner_inv P rng i v s havoid hfr hsold hpos hinv
    · simp only [tradeGo]
      apply ih (i + 1) (assetStep P rng i p s)
      · intro n hn hlen
        simpa using hcol (n + 1) (by omega) (by simpa using Nat.succ_lt_succ hlen)
      · rw [assetStep_sold_ne P rng i p s j fun h => hij h.symm]
        exact hsold
      · rw [assetStep_positions_ne P rng i p s j fun h => hij h.symm]
        exact hpos
      · rw [assetStep_positions_ne P rng i p s j fun h => hij h.symm,
          assetStep_avg_ne P rng i p s j fun h => hij h.symm]
        exact hinv

/-- Across the timestep loop, an asset with a strictly increasing, present
price column is never sold by the in-loop sell branch. -/
theorem simLoop_winner_inv (P : Params) (rng : ℕ → ℚ) (j : ℕ)
    (havoid : P.avoid_selling_winners = true) (hfr : P.fee_rate < 1) :
    ∀ (rows : List (List (Option ℚ))) (b : ℚ) (s : St) (prev : ℚ),
      strictColFrom j b rows = true →
      s.sold j = false → 0 ≤ s.positions j →
      (s.positions j = 0 ∨ s.avg_cost j ≤ b) →
      (simLoop P rng rows s prev).2.2.sold j = false
      ∧ 0 ≤ (simLoop P rng rows s prev).2.2.positions j := by
  intro rows
  induction rows with
  | nil =>
    intro b s prev _ hsold hpos _
    exact ⟨hsold, hpos⟩
  | cons row rest ih =>
    intro b s prev hcol hsold hpos hinv
    cases hv : row.getD j none with
    | none =>
      simp only [strictColFrom, hv] at hcol
      exact absurd hcol (by decide)
    | some v =>
      simp only [strictColFrom, hv] at hcol
      rw [Bool.and_eq_true, decide_eq_true_eq] at hcol
      obtain ⟨hbv, hrest⟩ := hcol
      by_cases hval : rowValid row
      · by_cases hm : s.cash + posVal s.positions row < 0
        · simp only [simLoop, hval, hm, if_true]
          exact ⟨hsold, hpos⟩
        · have hcolrow : ∀ n, 0 + n = j → n < row.length →
              row.getD n none = some v := by
            intro n hn _
            rw [show n = j from by omega]
            exact hv
          have hstep := tradeGo_winner_inv P rng j v havoid hfr row 0
            { s with available :=
                P.initial_capital * P.leverage - posVal s.positions row }
            hcolrow hsold hpos
            (Or.imp_right (fun h => lt_of_le_of_lt h hbv) hinv)
          have hrec := ih v (stepRow P rng row s)
            (s.cash + posVal s.positions row) hrest hstep.1 hstep.2.1 hstep.2.2
          simp only [simLoop, hval, hm, if_true, if_false]
          exact hrec
      · have hvalf : rowValid row = false := by simpa using hval
        simp only [simLoop, hvalf]
        exact ih v s prev hrest hsold hpos
          (Or.imp_right (fun h => le_of_lt (lt_of_le_of_lt h hbv)) hinv)

/-- The forced liquidation does sell a position above the dust threshold at
a present, positive final price, with no reference to the avoid flag. -/
theorem liqGo_sells (fr : ℚ) :
    ∀ (row : List (Option ℚ)) (n i : ℕ) (s : St) (v : ℚ),
      row.getD n none = some v → 0 < v → eps < s.positions (i + n) →
      (liqGo fr row i s).positions (i + n) = 0 := by
  intro row
  induction row with
  | nil =>
    intro n i s v h
    simp [List.getD] at h
  | cons p rest ih =>
    intro n i s v h hv hpos
    cases n with
    | zero =>
      have hp : p = some v := by simpa using h
      subst hp
      simp only [liqGo]
      rw [liqGo_positions_lt fr rest (i + 1) _ (i + 0) (by omega)]
      simp only [liqAsset, Nat.add_zero]
      rw [if_pos ⟨by simpa using hpos, hv⟩]
      simp [Function.update_same]
    | succ m =>
      have h2 : rest.getD m none = some v := by simpa using h
      simp only [liqGo]
      rw [show i + (m + 1) = (i + 1) + m from by omega]
      apply ih m (i + 1) (liqAsset fr i p s) v h2 hv
      rw [liqAsset_positions_ne fr i p s _ (by omega),
        show (i + 1) + m = i + (m + 1) from by omega]
      exact hpos

/-- C8: with `avoid_selling_winners` enabled and a strictly increasing,
fully present price column for asset `j` (every value above a bound that
dominates the starting average cost), the in-loop sell branch never fires
for `j` over the whole run, and whatever position is left at the end is
sold by the forced end-of-run liquidation whenever its final price is
present and positive — the liquidation consults only the position size and
the final price, never the avoid flag. -/
theorem c8_winner_kept_until_final_liquidation (P : Params) (rng : ℕ → ℚ)
    (rows : List (List (Option ℚ))) (s : St) (prev : ℚ) (j : ℕ) (b : ℚ)
    (havoid : P.avoid_selling_winners = true) (hfr : P.fee_rate < 1)
    (hcol : strictColFrom j b rows = true)
    (hsold : s.sold j = false) (hpos : 0 ≤ s.positions j)
    (hinv : s.positions j = 0 ∨ s.avg_cost j ≤ b) :
    (simLoop P rng rows s prev).2.2.sold j = false
    ∧ (∀ lastRow v, lastRow.getD j none = some v → 0 < v →
        eps < (simLoop P rng rows s prev).2.2.positions j →
        (liquidate P.fee_rate lastRow
          (simLoop P rng rows s prev).2.2).positions j = 0) := by
  refine ⟨(simLoop_winner_inv P rng j havoid hfr rows b s prev
    hcol hsold hpos hinv).1, ?_⟩
  intro lastRow v hv hv0 hpos2
  have h := liqGo_sells P.fee_rate lastRow j 0
    (simLoop P rng rows s prev).2.2 v (by simpa using hv) hv0
    (by simpa using hpos2)
  simpa using h

/-- Concrete avoid-selling-winners parameters for the witness run. -/
def p8Ex : Params :=
  { initial_capital := 1000, fee_rate := 1/1000, max_buy_perc_power := 1/2,
    prob_hold := 0, prob_buy := 1, avoid_selling_winners := true,
    leverage := 2 }

/-- C8 witness: over the strictly rising column 10, 20 the asset is never
sold inside the loop. -/
theorem c8_winner_kept_until_final_liquidation_witness :
    (p8Ex.avoid_selling_winners = true ∧ p8Ex.fee_rate < 1
      ∧ strictColFrom 0 5 [[some 10], [some 20]] = true) ∧
    (simLoop p8Ex rngHalf [[some 10], [some 20]]
        (initSt p8Ex) 1000).2.2.sold 0 = false :=
  ⟨⟨rfl, by norm_num [p8Ex], by with_unfolding_all decide⟩,
   (c8_winner_kept_until_final_liquidation p8Ex rngHalf [[some 10], [some 20]]
     (initSt p8Ex) 1000 0 5 rfl (by norm_num [p8Ex])
     (by with_unfolding_all decide) rfl (le_refl 0)
     (Or.inl rfl)).1⟩

end Nof1
